import Mathlib

/-!
# Verification of the sax circuit-combination engine specification

This file gives a shallow embedding of the sax photonic circuit simulator's
combination engine and of the component models defined in the repository's
example notebook (`src/examples/03_circuit_from_yaml.ipynb`), and proves or
refutes the frozen claims about them.

The repository snapshot contains only the example notebook (a caller of the
sax library); the library itself (S-matrix representations, the reciprocity
helper, the multimode lifter, the port-elimination backends and the circuit
builder) is not part of the sources.  Those parts are therefore modelled from
the specification (`spec.md`), and each such definition carries a doc comment
starting with `Modelled from the spec:`.  The notebook-defined functions
(`coupler`, `waveguide`, `waveguide_without_dispersion`,
`cascaded_amzi_generator`, the MZI netlist) are translated from the source.

Machine floats of the source are modelled as exact reals/complexes; the
spec's numeric tolerances (1e-6, 1e-9) are then witnessed by exact equalities.
-/

namespace Sax

/-- The four port names that occur on component models in the notebook
(`in0`, `in1`, `out0`, `out1`), as a finite enumeration. -/
inductive P4 : Type
  | in0 | in1 | out0 | out1
deriving DecidableEq

instance : Fintype P4 :=
  ⟨{P4.in0, P4.in1, P4.out0, P4.out1}, by intro x; cases x <;> decide⟩

/-- Instance names of the MZI netlist of the notebook (`lft`, `rgt`, `top`, `btm`). -/
inductive IN4 : Type
  | lft | rgt | top | btm
deriving DecidableEq

instance : Fintype IN4 :=
  ⟨{IN4.lft, IN4.rgt, IN4.top, IN4.btm}, by intro x; cases x <;> decide⟩

/-- External port names of the MZI netlist (`in0`, `in1`, `out0`, `out1`). -/
inductive EP4 : Type
  | ein0 | ein1 | eout0 | eout1
deriving DecidableEq

instance : Fintype EP4 :=
  ⟨{EP4.ein0, EP4.ein1, EP4.eout0, EP4.eout1}, by intro x; cases x <;> decide⟩

/-- A single-instance name type, for one-component netlists. -/
inductive IN1 : Type
  | dev
deriving DecidableEq

instance : Fintype IN1 := ⟨{IN1.dev}, by intro x; cases x; decide⟩

theorem sum_P4 {M : Type} [AddCommMonoid M] (f : P4 → M) :
    ∑ p : P4, f p = f .in0 + f .in1 + f .out0 + f .out1 := by
  rw [show (Finset.univ : Finset P4) = {P4.in0, P4.in1, P4.out0, P4.out1} from rfl]
  rw [Finset.sum_insert (by decide), Finset.sum_insert (by decide),
    Finset.sum_insert (by decide), Finset.sum_singleton]
  simp [add_assoc]

theorem sum_IN4 {M : Type} [AddCommMonoid M] (f : IN4 → M) :
    ∑ i : IN4, f i = f .lft + f .rgt + f .top + f .btm := by
  rw [show (Finset.univ : Finset IN4) = {IN4.lft, IN4.rgt, IN4.top, IN4.btm} from rfl]
  rw [Finset.sum_insert (by decide), Finset.sum_insert (by decide),
    Finset.sum_insert (by decide), Finset.sum_singleton]
  simp [add_assoc]

theorem sum_IN1 {M : Type} [AddCommMonoid M] (f : IN1 → M) :
    ∑ i : IN1, f i = f .dev := by
  rw [show (Finset.univ : Finset IN1) = {IN1.dev} from rfl, Finset.sum_singleton]

/-! ## The sparse scattering-dictionary representation (`SDict`)

In sax an `SDict` is a Python dict from ordered port pairs to complex values;
absence of a key means a zero scattering coefficient.  We model it as an
association list with first-match lookup (Python dicts have unique keys, so
first-match agrees with dict semantics), generic in the port type and in the
value ring so that concrete counterexamples can be evaluated. -/

/-- A sparse scattering relation: association list from ordered port pairs to
values; a missing key denotes a zero coefficient. -/
abbrev SDictOf (π R : Type) := List ((π × π) × R)

variable {π R : Type}

/-- The list of declared keys of an `SDict`. -/
def keys (d : SDictOf π R) : List (π × π) := d.map Prod.fst

/-- First-match lookup with default `0`: the scattering coefficient the
dictionary declares for an ordered port pair, `0` when the pair is absent. -/
def lookupD [DecidableEq π] [Zero R] : SDictOf π R → π × π → R
  | [], _ => 0
  | e :: es, k => if e.1 = k then e.2 else lookupD es k

/-- All ports mentioned by the keys of an `SDict` (deduplicated). -/
def portsOf [DecidableEq π] (d : SDictOf π R) : List π :=
  ((d.map (fun e => [e.1.1, e.1.2])).flatten).dedup

/-- Modelled from the spec: the reciprocity helper `sax.reciprocal` (missing
from the sources; §4.5): for every declared `(p,q) ↦ v` whose reverse `(q,p)`
is not declared, add `(q,p) ↦ v`; already-declared entries are left as-is. -/
def reciprocal [DecidableEq π] (d : SDictOf π R) : SDictOf π R :=
  d ++ (d.filter (fun e => decide ((e.1.2, e.1.1) ∉ keys d))).map
    (fun e => ((e.1.2, e.1.1), e.2))

/-! ## Component models from the notebook (source-derived) -/

open Complex in
/-- The ideal 2×2 coupler `SDict` with given through amplitude `τ` and cross
amplitude `κ` placed on ports `i0 i1 o0 o1` — the dictionary literal inside
the notebook's `coupler` function, before the amplitudes are specialised. -/
def couplerGen [DecidableEq π] (i0 i1 o0 o1 : π) (τ κ : ℂ) : SDictOf π ℂ :=
  reciprocal
    [((i0, o0), τ), ((i0, o1), I * κ), ((i1, o0), I * κ), ((i1, o1), τ)]

/-- The notebook's `coupler(coupling)` model: `kappa = coupling**0.5`,
`tau = (1-coupling)**0.5` (real square roots, as `x**0.5` on the notebook's
nonnegative arguments), then the reciprocal coupler dictionary. -/
noncomputable def couplerSD [DecidableEq π] (i0 i1 o0 o1 : π) (coupling : ℝ) :
    SDictOf π ℂ :=
  couplerGen i0 i1 o0 o1 (Real.sqrt (1 - coupling) : ℝ) (Real.sqrt coupling : ℝ)

open Complex in
/-- A one-way waveguide `SDict` with transmission `t` from `i0` to `o0`,
completed by `sax.reciprocal` — the shape shared by both notebook waveguide
models. -/
def wgGen [DecidableEq π] (i0 o0 : π) (t : ℂ) : SDictOf π ℂ :=
  reciprocal [((i0, o0), t)]

open Complex in
/-- The notebook's `waveguide_without_dispersion(wl, length, neff)`:
`phase = 2 π neff length / wl`, transmission `exp(1j * phase)`. -/
noncomputable def waveguide_without_dispersion [DecidableEq π] (i0 o0 : π)
    (wl length neff : ℝ) : SDictOf π ℂ :=
  wgGen i0 o0 (Complex.exp (I * (2 * Real.pi * neff * length / wl)))

open Complex in
/-- The notebook's dispersive `waveguide(wl, wl0, neff, ng, length, loss)`
model: linear `neff` dispersion around `wl0`, loss in dB per length unit,
transmission `10 ** (-loss * length / 20) * exp(1j * phase)`. -/
noncomputable def waveguideSD [DecidableEq π] (i0 o0 : π)
    (wl wl0 neff ng length loss : ℝ) : SDictOf π ℂ :=
  let dneff_dwl := (ng - neff) / wl0
  let neffc := neff - (wl - wl0) * dneff_dwl
  let phase := 2 * Real.pi * neffc * length / wl
  wgGen i0 o0 (((10 : ℝ) ^ (-loss * length / 20) : ℝ) * Complex.exp (I * phase))

/-! ## Lookup lemmas for the association-list dictionaries -/

theorem keys_cons (e : (π × π) × R) (es : SDictOf π R) :
    keys (e :: es) = e.1 :: keys es := rfl

theorem keys_append (l₁ l₂ : SDictOf π R) :
    keys (l₁ ++ l₂) = keys l₁ ++ keys l₂ := List.map_append _ _ _

theorem lookupD_append_left [DecidableEq π] [Zero R] {l₁ : SDictOf π R}
    (l₂ : SDictOf π R) {k : π × π} (h : k ∈ keys l₁) :
    lookupD (l₁ ++ l₂) k = lookupD l₁ k := by
  induction l₁ with
  | nil => simp [keys] at h
  | cons e es ih =>
    by_cases he : e.1 = k
    · simp [lookupD, he]
    · have hm : k ∈ keys es := by
        rcases (List.mem_cons.mp (by simpa [keys_cons] using h)) with h' | h'
        · exact absurd h'.symm he
        · exact h'
      simp [lookupD, he, ih hm]

theorem lookupD_append_right [DecidableEq π] [Zero R] {l₁ : SDictOf π R}
    (l₂ : SDictOf π R) {k : π × π} (h : k ∉ keys l₁) :
    lookupD (l₁ ++ l₂) k = lookupD l₂ k := by
  induction l₁ with
  | nil => rfl
  | cons e es ih =>
    have he : e.1 ≠ k := fun hc => h (by simp [keys_cons, hc])
    have hm : k ∉ keys es := fun hc => h (by simp [keys_cons, hc])
    simp [lookupD, he, ih hm]

theorem lookupD_eq_zero_of_not_mem [DecidableEq π] [Zero R] {l : SDictOf π R}
    {k : π × π} (h : k ∉ keys l) : lookupD l k = 0 := by
  induction l with
  | nil => rfl
  | cons e es ih =>
    have he : e.1 ≠ k := fun hc => h (by simp [keys_cons, hc])
    have hm : k ∉ keys es := fun hc => h (by simp [keys_cons, hc])
    simp [lookupD, he, ih hm]

/-- Lookup of a swapped key among the entries that the reciprocity helper
adds: it returns the value declared at the unswapped key. -/
theorem lookupD_reciprocal_added [DecidableEq π] [Zero R] (d : SDictOf π R)
    {l : SDictOf π R} {p q : π} (h2 : (q, p) ∉ keys d) (h1 : (p, q) ∈ keys l) :
    lookupD ((l.filter (fun e => decide ((e.1.2, e.1.1) ∉ keys d))).map
      (fun e => ((e.1.2, e.1.1), e.2))) (q, p) = lookupD l (p, q) := by
  induction l with
  | nil => simp [keys] at h1
  | cons e es ih =>
    by_cases he : e.1 = (p, q)
    · have hd : (e.1.2, e.1.1) ∉ keys d := by rw [he] at *; exact h2
      simp [List.filter_cons, hd, h2, lookupD, he]
    · have hm : (p, q) ∈ keys es := by
        rcases (List.mem_cons.mp (by simpa [keys_cons] using h1)) with h' | h'
        · exact absurd h'.symm he
        · exact h'
      have hk : ((e.1.2, e.1.1) : π × π) ≠ (q, p) := by
        intro hc
        exact he (by
          have h1' : e.1.2 = q := congrArg Prod.fst hc
          have h2' : e.1.1 = p := congrArg Prod.snd hc
          calc e.1 = (e.1.1, e.1.2) := rfl
            _ = (p, q) := by rw [h1', h2'])
      by_cases hf : (e.1.2, e.1.1) ∉ keys d
      · simp [List.filter_cons, hf, lookupD, he, hk]
        simpa using ih hm
      · simp [List.filter_cons, hf, lookupD, he]
        simpa using ih hm

/-- Every entry of `reciprocal d` has its swapped key declared in
`reciprocal d` — the completed relation is symmetric on its key set. -/
theorem swap_mem_keys_reciprocal [DecidableEq π] (d : SDictOf π R) :
    ∀ e ∈ reciprocal d, (e.1.2, e.1.1) ∈ keys (reciprocal d) := by
  intro e he
  rcases List.mem_append.mp he with hd | ha
  · by_cases hk : (e.1.2, e.1.1) ∈ keys d
    · rw [reciprocal, keys_append]
      exact List.mem_append_left _ hk
    · rw [reciprocal, keys_append]
      refine List.mem_append_right _ ?_
      refine List.mem_map.mpr ⟨((e.1.2, e.1.1), e.2), ?_, rfl⟩
      exact List.mem_map.mpr ⟨e, List.mem_filter.mpr ⟨hd, by simpa using hk⟩, rfl⟩
  · rcases List.mem_map.mp ha with ⟨f, hf, hfe⟩
    have hf' : f ∈ d := (List.mem_filter.mp hf).1
    have h1 : e.1.2 = f.1.1 := by rw [← hfe]
    have h2 : e.1.1 = f.1.2 := by rw [← hfe]
    rw [reciprocal, keys_append]
    refine List.mem_append_left _ ?_
    have : ((e.1.2, e.1.1) : π × π) = f.1 := by
      rw [h1, h2]
    rw [this]
    exact List.mem_map.mpr ⟨f, hf', rfl⟩

/-- Claim C6: for every sparse scattering relation `s`, the reciprocity
helper returns `r` such that (a) every declared entry of `s` is present
unchanged in `r`, (b) for every declared `(p,q) ↦ v` whose reverse `(q,p)` is
not declared, `r` declares `(q,p) ↦ v`, and (c) `r` declares no keys beyond
those two families. -/
theorem C6_reciprocal_semantics [DecidableEq π] (d : SDictOf π ℂ) (p q : π) :
    ((p, q) ∈ keys d → (p, q) ∈ keys (reciprocal d) ∧
      lookupD (reciprocal d) (p, q) = lookupD d (p, q)) ∧
    ((p, q) ∈ keys d → (q, p) ∉ keys d → (q, p) ∈ keys (reciprocal d) ∧
      lookupD (reciprocal d) (q, p) = lookupD d (p, q)) ∧
    (∀ k ∈ keys (reciprocal d), k ∈ keys d ∨ (k.2, k.1) ∈ keys d) := by
  refine ⟨fun h1 => ⟨?_, ?_⟩, fun h1 h2 => ⟨?_, ?_⟩, fun k hk => ?_⟩
  · rw [reciprocal, keys_append]; exact List.mem_append_left _ h1
  · exact lookupD_append_left _ h1
  · rcases List.mem_map.mp h1 with ⟨e, he, hek⟩
    have h12 : e.1.2 = q := by rw [hek]
    have h11 : e.1.1 = p := by rw [hek]
    rw [reciprocal, keys_append]
    refine List.mem_append_right _ (List.mem_map.mpr ⟨((q, p), e.2), ?_, rfl⟩)
    refine List.mem_map.mpr ⟨e, List.mem_filter.mpr ⟨he, ?_⟩, ?_⟩
    · simp [h12, h11, h2]
    · rw [h12, h11]
  · rw [reciprocal, lookupD_append_right _ h2]
    exact lookupD_reciprocal_added d h2 h1
  · rcases List.mem_append.mp (by simpa [reciprocal, keys_append] using hk) with h | h
    · exact Or.inl h
    · rcases List.mem_map.mp h with ⟨e', he', hek⟩
      rcases List.mem_map.mp he' with ⟨f, hf, hfe⟩
      right
      have hf' : f ∈ d := (List.mem_filter.mp hf).1
      have : (k.2, k.1) = f.1 := by
        rw [← hek, ← hfe]
      rw [this]
      exact List.mem_map.mpr ⟨f, hf', rfl⟩

/-- Witness for C6 at the one-entry dictionary `{("a","b") ↦ 2}`: the
reverse key is added with the declared value. -/
theorem C6_reciprocal_semantics_witness :
    ("b", "a") ∈ keys (reciprocal [((("a" : String), ("b" : String)), (2 : ℂ))]) ∧
      lookupD (reciprocal [((("a" : String), ("b" : String)), (2 : ℂ))])
          ("b", "a")
        = lookupD [((("a" : String), ("b" : String)), (2 : ℂ))] ("a", "b") :=
  (C6_reciprocal_semantics [((("a" : String), ("b" : String)), (2 : ℂ))]
    "a" "b").2.1 (by decide) (by decide)

/-- Claim C7: the reciprocity helper is idempotent —
`reciprocal (reciprocal s) = reciprocal s`, as an exact equality of the
resulting dictionaries. -/
theorem C7_reciprocal_idempotent [DecidableEq π] (d : SDictOf π ℂ) :
    reciprocal (reciprocal d) = reciprocal d := by
  have hnil : (reciprocal d).filter
      (fun e => decide ((e.1.2, e.1.1) ∉ keys (reciprocal d))) = [] := by
    refine List.filter_eq_nil_iff.mpr fun e he => ?_
    simpa using swap_mem_keys_reciprocal d e he
  rw [reciprocal, hnil]
  simp

/-! ## The port-elimination engine (spec-modelled)

The combination engine of sax is not part of the repository sources, so it
is modelled from the spec (§4.2, §4.6).  A netlist instance carries its
exposed port list and its resolved S-matrix (entry `[p, q]` is the
coefficient from incoming amplitude at `q` to outgoing amplitude at `p`).
The global system over all instance-port pairs is `b = S a` together with
the connection constraints `a_p = b_{σ p}`; writing `C` for the symmetric
pairing matrix of the connection list, the amplitudes for an external
excitation `src` solve `a = C (S a) + src`, i.e. `a = (1 - C S)⁻¹ src`,
and the circuit coefficient from external port `ei` to `eo` reads off
`(S a)` at the location of `eo`. -/

variable {ι P ε : Type}

open Matrix

/-- A resolved netlist instance: its exposed ports and its S-matrix. -/
structure Inst (P R : Type) where
  ports : List P
  smat : Matrix P P R

/-- First-match search of a list by a key function (Python dict lookup
semantics; the tables in question have unique keys). -/
def assocFind {α κ : Type} [DecidableEq κ] (key : α → κ) :
    List α → κ → Option α
  | [], _ => none
  | e :: es, k => if key e = k then some e else assocFind key es k

/-- First-match lookup of an instance's S-matrix by instance name
(instance tables have unique names); `0` for an unknown name. -/
def instSMat [DecidableEq ι] [Zero R] (insts : List (ι × Inst P R)) (i : ι) :
    Matrix P P R :=
  match assocFind Prod.fst insts i with
  | some e => e.2.smat
  | none => 0

/-- Modelled from the spec: the block-diagonal union system over all
instance-port pairs (§4.2 "build the block-disjoint system over Pa∪Pb") —
zero coupling between distinct instances. -/
def bigS [DecidableEq ι] [Zero R] (insts : List (ι × Inst P R)) :
    Matrix (ι × P) (ι × P) R :=
  fun x y => if x.1 = y.1 then instSMat insts x.1 x.2 y.2 else 0

/-- The S-matrix of an `SDict`: the dictionary key `(q, p) ↦ v` declares the
coefficient from incoming port `q` to outgoing port `p`, i.e. entry `[p, q]`. -/
def sdictToMat [DecidableEq π] [Zero R] (d : SDictOf π R) : Matrix π π R :=
  fun p q => lookupD d (q, p)

/-- Modelled from the spec: the symmetric pairing matrix of a connection
list — `C[x,y] = 1` when the netlist connects `x` and `y` (in either
orientation), `0` otherwise.  Rows of unconnected ports are zero. -/
def connMat [DecidableEq ι] [DecidableEq P] [Zero R] [One R]
    (conns : List ((ι × P) × (ι × P))) : Matrix (ι × P) (ι × P) R :=
  fun x y => if (x, y) ∈ conns ∨ (y, x) ∈ conns then 1 else 0

/-- Modelled from the spec: the dense backend's amplitude solve — eliminate
all connected ports in one linear-algebra step (§4.2), i.e. solve
`(1 - C S) a = src`. -/
noncomputable def solveAmps {ip : Type} [Fintype ip] [DecidableEq ip] [CommRing R]
    (S C : Matrix ip ip R) (src : ip → R) : ip → R :=
  (1 - C * S)⁻¹ *ᵥ src

/-- Modelled from the spec: the forward-only backend — no linear solve, the
signal is chained through forward transmission sub-blocks along the
connection graph (§4.2); with at most `card ip` ports every acyclic chain
has fewer than `card ip` hops, so propagation is the truncated Neumann sum
`∑_{k < card ip} (C S)^k` applied to the source. -/
def forwardAmps {ip : Type} [Fintype ip] [DecidableEq ip] [CommRing R]
    (S C : Matrix ip ip R) (src : ip → R) : ip → R :=
  (∑ k ∈ Finset.range (Fintype.card ip), (C * S) ^ k) *ᵥ src

/-- First-match lookup of an external port's internal location. -/
def extLoc [DecidableEq ε] {α : Type} (l : List (ε × α)) (x : ε) : Option α :=
  (assocFind Prod.fst l x).map Prod.snd

/-- Modelled from the spec: the circuit function of the default/dense
backend — coefficient from external port `ei` to external port `eo` of the
flattened netlist. -/
noncomputable def circuitDense [Fintype ι] [Fintype P] [DecidableEq ι]
    [DecidableEq P] [DecidableEq ε] (insts : List (ι × Inst P ℂ))
    (conns : List ((ι × P) × (ι × P))) (ports : List (ε × (ι × P)))
    (eo ei : ε) : ℂ :=
  match extLoc ports eo, extLoc ports ei with
  | some o, some i =>
      (bigS insts *ᵥ solveAmps (bigS insts) (connMat conns) (Pi.single i 1)) o
  | _, _ => 0

/-- Modelled from the spec: the sparse-direct (KLU-class) backend represents
the same global linear system sparsely and "produces the same numeric
result as the dense backend" (§4.2); in exact arithmetic it is the same
solve. -/
noncomputable def circuitKlu [Fintype ι] [Fintype P] [DecidableEq ι]
    [DecidableEq P] [DecidableEq ε] (insts : List (ι × Inst P ℂ))
    (conns : List ((ι × P) × (ι × P))) (ports : List (ε × (ι × P)))
    (eo ei : ε) : ℂ :=
  circuitDense insts conns ports eo ei

/-- Modelled from the spec: the circuit function of the forward-only
backend. -/
noncomputable def circuitForward [Fintype ι] [Fintype P] [DecidableEq ι]
    [DecidableEq P] [DecidableEq ε] (insts : List (ι × Inst P ℂ))
    (conns : List ((ι × P) × (ι × P))) (ports : List (ε × (ι × P)))
    (eo ei : ε) : ℂ :=
  match extLoc ports eo, extLoc ports ei with
  | some o, some i =>
      (bigS insts *ᵥ forwardAmps (bigS insts) (connMat conns) (Pi.single i 1)) o
  | _, _ => 0

/-- An instance port is referenced when it occurs as an endpoint of some
connection or as the target of some external-port declaration. -/
def referenced [DecidableEq ι] [DecidableEq P]
    (conns : List ((ι × P) × (ι × P))) (ports : List (ε × (ι × P)))
    (x : ι × P) : Prop :=
  (∃ c ∈ conns, c.1 = x ∨ c.2 = x) ∨ ∃ pe ∈ ports, pe.2 = x

instance referencedDecidable [DecidableEq ι] [DecidableEq P]
    (conns : List ((ι × P) × (ι × P))) (ports : List (ε × (ι × P)))
    (x : ι × P) : Decidable (referenced conns ports x) :=
  inferInstanceAs
    (Decidable ((∃ c ∈ conns, c.1 = x ∨ c.2 = x) ∨ ∃ pe ∈ ports, pe.2 = x))

/-- All instance-port pairs exposed by the instances of a netlist. -/
def exposedAll (insts : List (ι × Inst P R)) : List (ι × P) :=
  (insts.map (fun e => e.2.ports.map (fun p => (e.1, p)))).flatten

/-- The exposed instance ports that are neither connected nor exported. -/
def offendingPorts [DecidableEq ι] [DecidableEq P] [DecidableEq ε]
    (insts : List (ι × Inst P R)) (conns : List ((ι × P) × (ι × P)))
    (ports : List (ε × (ι × P))) : List (ι × P) :=
  (exposedAll insts).filter (fun x => !(decide (referenced conns ports x)))

/-- Build-time structural errors of the circuit builder. -/
inductive BuildError (ι P : Type) : Type
  | unconnectedPort (i : ι) (p : P)

/-- Modelled from the spec: the circuit builder `sax.circuit` (§4.6, §7) —
it validates port/connection integrity before any numeric evaluation and
fails naming the offending instance port; on a well-formed netlist it
produces the compiled circuit function of the chosen (default) backend. -/
noncomputable def buildCircuit [Fintype ι] [Fintype P] [DecidableEq ι]
    [DecidableEq P] [DecidableEq ε] (insts : List (ι × Inst P ℂ))
    (conns : List ((ι × P) × (ι × P))) (ports : List (ε × (ι × P))) :
    Except (BuildError ι P) (ε → ε → ℂ) :=
  match offendingPorts insts conns ports with
  | [] => .ok (circuitDense insts conns ports)
  | x :: _ => .error (.unconnectedPort x.1 x.2)

/-! ## Generic lemmas about the engine's linear algebra -/

/-- First-match search is invariant under permuting a duplicate-key-free
list. -/
theorem assocFind_perm {α κ : Type} [DecidableEq κ] (key : α → κ)
    {l₁ l₂ : List α} (hp : l₁.Perm l₂) :
    ((l₁.map key).Nodup) → ∀ k, assocFind key l₂ k = assocFind key l₁ k := by
  induction hp with
  | nil => intro _ k; rfl
  | cons x t ih =>
    intro hn k
    have hn' : _ := (by simpa [List.nodup_cons] using hn : _ ∧ _).2
    by_cases hx : key x = k
    · simp [assocFind, hx]
    · simp [assocFind, hx, ih hn' k]
  | swap x y t =>
    intro hn k
    have hxy : key y ≠ key x := by
      have := (by simpa [List.nodup_cons] using hn : _ ∧ _).1
      exact fun hc => this.1 hc
    by_cases hx : key x = k <;> by_cases hy : key y = k
    · exact absurd (hy.trans hx.symm) hxy
    · simp [assocFind, hx, hy]
    · simp [assocFind, hx, hy]
    · simp [assocFind, hx, hy]
  | trans h₁ h₂ ih₁ ih₂ =>
    intro hn k
    rw [ih₂ (((h₁.map key).nodup_iff).mp hn) k, ih₁ hn k]

/-- Entries of a power of a graded matrix vanish when the grading gap is
smaller than the power: signal flow strictly decreases the grade. -/
theorem pow_apply_eq_zero_of_grading {ip R : Type} [Fintype ip] [DecidableEq ip]
    [CommRing R] (M : Matrix ip ip R) (rk : ip → ℕ)
    (h : ∀ p q, M p q ≠ 0 → rk q < rk p) :
    ∀ (k : ℕ) (p q : ip), rk p < k + rk q → (M ^ k) p q = 0 := by
  intro k
  induction k with
  | zero =>
    intro p q hpq
    have hne : p ≠ q := by
      intro hc; subst hc; omega
    simp [Matrix.one_apply, hne]
  | succ k ih =>
    intro p q hpq
    rw [pow_succ', Matrix.mul_apply]
    apply Finset.sum_eq_zero
    intro r _
    by_cases hm : M p r = 0
    · simp [hm]
    · have h1 : rk r < rk p := h p r hm
      have h2 : rk r < k + rk q := by omega
      simp [ih r q h2]

/-- A matrix admitting a strictly decreasing grading bounded by `n` is
nilpotent with `M ^ n = 0`. -/
theorem pow_eq_zero_of_grading {ip R : Type} [Fintype ip] [DecidableEq ip]
    [CommRing R] (M : Matrix ip ip R) (rk : ip → ℕ) (n : ℕ)
    (h : ∀ p q, M p q ≠ 0 → rk q < rk p) (hb : ∀ p, rk p < n) :
    M ^ n = 0 := by
  ext p q
  rw [Matrix.zero_apply]
  exact pow_apply_eq_zero_of_grading M rk h n p q (by have := hb p; omega)

/-- For a nilpotent matrix, the inverse of `1 - M` is the finite Neumann
sum: solving the circuit equations equals chaining the signal flow. -/
theorem inv_one_sub_of_pow_eq_zero {ip R : Type} [Fintype ip] [DecidableEq ip]
    [CommRing R] {M : Matrix ip ip R} {n : ℕ} (h : M ^ n = 0) :
    (1 - M)⁻¹ = ∑ k ∈ Finset.range n, M ^ k := by
  apply Matrix.inv_eq_left_inv
  calc (∑ k ∈ Finset.range n, M ^ k) * (1 - M)
      = -((∑ k ∈ Finset.range n, M ^ k) * (M - 1)) := by rw [← mul_neg, neg_sub]
    _ = -(M ^ n - 1) := by rw [geom_sum_mul]
    _ = 1 := by rw [h]; simp

/-- When the connection list realises a partial pairing `partner`, left
multiplication by the pairing matrix selects the partnered row. -/
theorem connMat_mul_of_partner [Fintype ι] [Fintype P] [DecidableEq ι]
    [DecidableEq P] {R : Type} [CommRing R]
    (conns : List ((ι × P) × (ι × P))) (partner : ι × P → Option (ι × P))
    (h : ∀ x y, ((x, y) ∈ conns ∨ (y, x) ∈ conns) ↔ partner x = some y)
    (A : Matrix (ι × P) (ι × P) R) :
    connMat conns * A =
      fun x q => ((partner x).map (fun r => A r q)).getD 0 := by
  ext x q
  rw [Matrix.mul_apply]
  have hc : ∀ y, connMat conns x y = if partner x = some y then (1 : R) else 0 := by
    intro y
    rw [connMat]
    by_cases hxy : partner x = some y
    · rw [if_pos ((h x y).mpr hxy), if_pos hxy]
    · rw [if_neg (fun hmem => hxy ((h x y).mp hmem)), if_neg hxy]
  cases hp : partner x with
  | none =>
    simp only [hc, hp, Option.map_none', Option.getD_none]
    apply Finset.sum_eq_zero
    intro r _
    simp
  | some r0 =>
    simp only [hc, hp, Option.map_some', Option.getD_some, Option.some.injEq,
      ite_mul, one_mul, zero_mul]
    simpa using Fintype.sum_ite_eq r0 (fun y => A y q)

/-! ## The MZI netlist of the notebook (source-derived)

The YAML netlist of the notebook: two couplers `lft`, `rgt` joined by two
straight waveguides `top` (length 25.0) and `btm` (length 15.0), with
`connections: lft,out0→btm,in0; btm,out0→rgt,in0; lft,out1→top,in0;
top,out0→rgt,in1` and external ports `in0:lft,in0; in1:lft,in1;
out0:rgt,out0; out1:rgt,out1`. -/

/-- A coupler instance with through amplitude `τ` and cross amplitude `κ`. -/
def couplerInst (τ κ : ℂ) : Inst P4 ℂ :=
  ⟨portsOf (couplerGen P4.in0 P4.in1 P4.out0 P4.out1 τ κ),
   sdictToMat (couplerGen P4.in0 P4.in1 P4.out0 P4.out1 τ κ)⟩

/-- A waveguide instance with transmission `t`. -/
def wgInst (t : ℂ) : Inst P4 ℂ :=
  ⟨portsOf (wgGen P4.in0 P4.out0 t), sdictToMat (wgGen P4.in0 P4.out0 t)⟩

/-- The MZI instance table with symbolic coupler amplitudes and arm
transmissions (`tt` the top arm, `tb` the bottom arm). -/
def mziInsts (τ κ tt tb : ℂ) : List (IN4 × Inst P4 ℂ) :=
  [(.lft, couplerInst τ κ), (.rgt, couplerInst τ κ),
   (.top, wgInst tt), (.btm, wgInst tb)]

/-- The MZI connection list of the notebook netlist. -/
def mziConns : List ((IN4 × P4) × (IN4 × P4)) :=
  [((.lft, .out0), (.btm, .in0)), ((.btm, .out0), (.rgt, .in0)),
   ((.lft, .out1), (.top, .in0)), ((.top, .out0), (.rgt, .in1))]

/-- The MZI external-port table of the notebook netlist. -/
def mziPorts : List (EP4 × (IN4 × P4)) :=
  [(.ein0, (.lft, .in0)), (.ein1, (.lft, .in1)),
   (.eout0, (.rgt, .out0)), (.eout1, (.rgt, .out1))]

/-- The pairing realised by `mziConns`. -/
def mziPartner : IN4 × P4 → Option (IN4 × P4)
  | (.lft, .out0) => some (.btm, .in0)
  | (.btm, .in0) => some (.lft, .out0)
  | (.btm, .out0) => some (.rgt, .in0)
  | (.rgt, .in0) => some (.btm, .out0)
  | (.lft, .out1) => some (.top, .in0)
  | (.top, .in0) => some (.lft, .out1)
  | (.top, .out0) => some (.rgt, .in1)
  | (.rgt, .in1) => some (.top, .out0)
  | _ => none

theorem mziPartner_spec :
    ∀ x y : IN4 × P4,
      ((x, y) ∈ mziConns ∨ (y, x) ∈ mziConns) ↔ mziPartner x = some y := by
  decide

/-- A grading of the MZI signal-flow graph: every nonzero entry of the flow
matrix strictly decreases it. -/
def mziRank : IN4 × P4 → ℕ
  | (.btm, .in0) => 1
  | (.top, .in0) => 1
  | (.btm, .out0) => 1
  | (.top, .out0) => 1
  | (.rgt, .in0) => 2
  | (.rgt, .in1) => 2
  | (.lft, .out0) => 2
  | (.lft, .out1) => 2
  | _ => 0

/-- The MZI signal-flow matrix `C · S`. -/
noncomputable def mziM (τ κ tt tb : ℂ) : Matrix (IN4 × P4) (IN4 × P4) ℂ :=
  connMat mziConns * bigS (mziInsts τ κ tt tb)

theorem mziM_eq (τ κ tt tb : ℂ) :
    mziM τ κ tt tb = fun x q =>
      ((mziPartner x).map (fun r => bigS (mziInsts τ κ tt tb) r q)).getD 0 := by
  show connMat mziConns * bigS (mziInsts τ κ tt tb) = _
  exact connMat_mul_of_partner mziConns mziPartner mziPartner_spec
    (bigS (mziInsts τ κ tt tb))

theorem mziM_graded (τ κ tt tb : ℂ) :
    ∀ x y : IN4 × P4, mziM τ κ tt tb x y ≠ 0 → mziRank y < mziRank x := by
  intro x y
  rw [mziM_eq]
  obtain ⟨i, p⟩ := x
  obtain ⟨j, q⟩ := y
  cases i <;> cases p <;> cases j <;> cases q <;>
    first
      | (intro _; decide)
      | (intro h; exact absurd rfl h)

theorem mziM_pow_three (τ κ tt tb : ℂ) : mziM τ κ tt tb ^ 3 = 0 :=
  pow_eq_zero_of_grading _ mziRank 3 (mziM_graded τ κ tt tb) (by decide)

theorem mzi_col1 (τ κ tt tb : ℂ) :
    mziM τ κ tt tb *ᵥ Pi.single (IN4.lft, P4.in0) (1 : ℂ)
      = Pi.single (IN4.btm, P4.in0) τ +
          Pi.single (IN4.top, P4.in0) (Complex.I * κ) := by
  rw [Matrix.mulVec_single]
  funext x
  rw [mziM_eq]
  obtain ⟨i, p⟩ := x
  cases i <;> cases p <;>
    simp [mziPartner, bigS, mziInsts, instSMat, assocFind, couplerInst,
      wgInst, sdictToMat, couplerGen, wgGen, reciprocal, keys, lookupD,
      Pi.single_apply]

theorem mzi_col2 (τ κ tt tb : ℂ) :
    mziM τ κ tt tb *ᵥ
        (Pi.single (IN4.btm, P4.in0) τ +
          Pi.single (IN4.top, P4.in0) (Complex.I * κ))
      = Pi.single (IN4.rgt, P4.in0) (tb * τ) +
          Pi.single (IN4.rgt, P4.in1) (tt * (Complex.I * κ)) := by
  rw [Matrix.mulVec_add, Matrix.mulVec_single, Matrix.mulVec_single]
  funext x
  rw [Pi.add_apply]
  rw [mziM_eq]
  obtain ⟨i, p⟩ := x
  cases i <;> cases p <;>
    simp [mziPartner, bigS, mziInsts, instSMat, assocFind, couplerInst,
      wgInst, sdictToMat, couplerGen, wgGen, reciprocal, keys, lookupD,
      Pi.single_apply]

/-- Evaluating the dense engine on the MZI netlist with symbolic
coefficients yields exactly the two-path interference sum. -/
theorem mzi_dense_entry (τ κ tt tb : ℂ) :
    circuitDense (mziInsts τ κ tt tb) mziConns mziPorts .eout0 .ein0
      = τ * τ * tb + (Complex.I * κ) * (Complex.I * κ) * tt := by
  have hred : circuitDense (mziInsts τ κ tt tb) mziConns mziPorts .eout0 .ein0
      = (bigS (mziInsts τ κ tt tb) *ᵥ
          solveAmps (bigS (mziInsts τ κ tt tb)) (connMat mziConns)
            (Pi.single (IN4.lft, P4.in0) 1)) (IN4.rgt, P4.out0) := rfl
  rw [hred, solveAmps,
    show connMat mziConns * bigS (mziInsts τ κ tt tb) = mziM τ κ tt tb from rfl,
    inv_one_sub_of_pow_eq_zero (mziM_pow_three τ κ tt tb)]
  rw [show (∑ k ∈ Finset.range 3, mziM τ κ tt tb ^ k)
      = 1 + mziM τ κ tt tb + mziM τ κ tt tb ^ 2 by
    simp [Finset.sum_range_succ]]
  rw [Matrix.add_mulVec, Matrix.add_mulVec, Matrix.one_mulVec, pow_two,
    ← Matrix.mulVec_mulVec, mzi_col1 τ κ tt tb, mzi_col2 τ κ tt tb]
  simp only [Matrix.mulVec_add, Matrix.mulVec_single, Pi.add_apply]
  simp [bigS, mziInsts, instSMat, assocFind, couplerInst, wgInst,
    sdictToMat, couplerGen, wgGen, reciprocal, keys, lookupD]
  ring

/-! ## Claim C1: end-to-end MZI scenario -/

/-- Through amplitude of the ideal 3 dB coupler (`coupling = 0.5`). -/
noncomputable def tauMzi : ℂ := (Real.sqrt (1 - 0.5) : ℝ)

/-- Cross amplitude of the ideal 3 dB coupler (`coupling = 0.5`). -/
noncomputable def kappaMzi : ℂ := (Real.sqrt 0.5 : ℝ)

/-- Transmission of a lossless arm of the given length at `wl = 1.55`,
`neff = 2.34` — the value of `waveguide_without_dispersion`. -/
noncomputable def armMzi (len : ℝ) : ℂ :=
  Complex.exp (Complex.I * (2 * Real.pi * 2.34 * len / 1.55))

/-- The resolved instance table of the notebook MZI netlist: two ideal
3 dB couplers and the two notebook waveguides of length 25.0 (top) and
15.0 (bottom), all at wavelength 1.55. -/
noncomputable def mziNetInsts : List (IN4 × Inst P4 ℂ) :=
  [(.lft, ⟨portsOf (couplerSD P4.in0 P4.in1 P4.out0 P4.out1 0.5),
           sdictToMat (couplerSD P4.in0 P4.in1 P4.out0 P4.out1 0.5)⟩),
   (.rgt, ⟨portsOf (couplerSD P4.in0 P4.in1 P4.out0 P4.out1 0.5),
           sdictToMat (couplerSD P4.in0 P4.in1 P4.out0 P4.out1 0.5)⟩),
   (.top, ⟨portsOf (waveguide_without_dispersion P4.in0 P4.out0 1.55 25 2.34),
           sdictToMat (waveguide_without_dispersion P4.in0 P4.out0 1.55 25 2.34)⟩),
   (.btm, ⟨portsOf (waveguide_without_dispersion P4.in0 P4.out0 1.55 15 2.34),
           sdictToMat (waveguide_without_dispersion P4.in0 P4.out0 1.55 15 2.34)⟩)]

theorem mziNetInsts_eq :
    mziNetInsts = mziInsts tauMzi kappaMzi (armMzi 25) (armMzi 15) := rfl

/-- `|S(in0, out0)|²` of the circuit function the builder produces for the
MZI netlist. -/
noncomputable def mziTransmission : ℝ :=
  Complex.abs (circuitDense mziNetInsts mziConns mziPorts .eout0 .ein0) ^ 2

/-- The closed-form two-path interference transmission, computed
independently from the same coupler and waveguide coefficients: through
path `τ · t_btm · τ`, cross path `(iκ) · t_top · (iκ)`. -/
noncomputable def twoPathFormula : ℝ :=
  Complex.abs (tauMzi * tauMzi * armMzi 15 +
    (Complex.I * kappaMzi) * (Complex.I * kappaMzi) * armMzi 25) ^ 2

/-- Claim C1: for the netlist of two ideal 3 dB couplers joined by two
lossless arms of lengths 25.0 and 15.0 (`neff = 2.34`) at `wl = 1.55`,
`sax.circuit` builds successfully and the circuit's `|S(in0,out0)|²` matches
the closed-form two-path interference formula within `1e-6` (here: exactly,
so in particular within the tolerance). -/
theorem C1_mzi_end_to_end :
    buildCircuit mziNetInsts mziConns mziPorts
        = Except.ok (circuitDense mziNetInsts mziConns mziPorts) ∧
      |mziTransmission - twoPathFormula| ≤ 1e-6 := by
  constructor
  · rfl
  · have h := mzi_dense_entry tauMzi kappaMzi (armMzi 25) (armMzi 15)
    rw [mziTransmission, twoPathFormula, mziNetInsts_eq, h]
    rw [sub_self, abs_zero]
    norm_num

/-! ## Claim C2: backend agreement -/

/-- When the signal-flow matrix is nilpotent (acyclic flow), the forward
chaining sum equals the dense linear solve. -/
theorem forwardAmps_eq_solveAmps {ip : Type} [Fintype ip] [DecidableEq ip]
    (S C : Matrix ip ip ℂ) (h : (C * S) ^ Fintype.card ip = 0) (src : ip → ℂ) :
    forwardAmps S C src = solveAmps S C src := by
  rw [forwardAmps, solveAmps, inv_one_sub_of_pow_eq_zero h]

/-- Claim C2, amended: for every netlist whose signal-flow matrix is
nilpotent (acyclic signal flow — in particular no back-reflection feeding a
loop), the sparse-direct (klu) backend and the forward-only backend produce
the same S-matrix as the dense backend, exactly, hence within the claimed
`1e-6` relative tolerance. -/
theorem C2_backend_agreement [Fintype ι] [Fintype P] [DecidableEq ι]
    [DecidableEq P] [DecidableEq ε] (insts : List (ι × Inst P ℂ))
    (conns : List ((ι × P) × (ι × P))) (ports : List (ε × (ι × P)))
    (h : (connMat conns * bigS insts) ^ Fintype.card (ι × P) = 0)
    (eo ei : ε) :
    circuitKlu insts conns ports eo ei = circuitDense insts conns ports eo ei ∧
    circuitForward insts conns ports eo ei = circuitDense insts conns ports eo ei ∧
    Complex.abs (circuitForward insts conns ports eo ei -
        circuitDense insts conns ports eo ei)
      ≤ 1e-6 * Complex.abs (circuitDense insts conns ports eo ei) := by
  have key : circuitForward insts conns ports eo ei
      = circuitDense insts conns ports eo ei := by
    simp only [circuitForward, circuitDense]
    cases hlo : extLoc ports eo <;> cases hli : extLoc ports ei <;>
      simp [forwardAmps_eq_solveAmps (bigS insts) (connMat conns) h]
  refine ⟨rfl, key, ?_⟩
  rw [key, sub_self]
  simp only [map_zero]
  positivity

/-! ### Counterexample to the claim as stated: a forward-only ring

A single 2×2 splitter whose only nonzero couplings go from an input port to
an output port (every backward coupling term is zero), with its `out1`
looped back into its `in1`: the signal-flow graph has a cycle, and the
forward backend truncates the resonant geometric series that the dense
solve sums exactly. -/

/-- External ports of the ring example. -/
inductive EP2 : Type
  | ein0 | eout0
deriving DecidableEq

instance : Fintype EP2 := ⟨{EP2.ein0, EP2.eout0}, by intro x; cases x <;> decide⟩

/-- A purely forward 2×2 splitter: every declared coupling goes from an
input port to an output port with amplitude `1/2`. -/
noncomputable def ringCouplerSD : SDictOf P4 ℂ :=
  [((P4.in0, P4.out0), 1 / 2), ((P4.in1, P4.out0), 1 / 2),
   ((P4.in0, P4.out1), 1 / 2), ((P4.in1, P4.out1), 1 / 2)]

/-- The one-instance table of the ring netlist. -/
noncomputable def ringInsts : List (IN1 × Inst P4 ℂ) :=
  [(.dev, ⟨portsOf ringCouplerSD, sdictToMat ringCouplerSD⟩)]

/-- One connection: the splitter's `out1` feeds its own `in1`. -/
def ringConns : List ((IN1 × P4) × (IN1 × P4)) :=
  [((IN1.dev, P4.out1), (IN1.dev, P4.in1))]

/-- External ports: `in0` and `out0` of the splitter. -/
def ringPorts : List (EP2 × (IN1 × P4)) :=
  [(.ein0, (IN1.dev, P4.in0)), (.eout0, (IN1.dev, P4.out0))]

/-- The pairing realised by `ringConns`. -/
def ringPartner : IN1 × P4 → Option (IN1 × P4)
  | (.dev, .out1) => some (.dev, .in1)
  | (.dev, .in1) => some (.dev, .out1)
  | _ => none

theorem ringPartner_spec :
    ∀ x y : IN1 × P4,
      ((x, y) ∈ ringConns ∨ (y, x) ∈ ringConns) ↔ ringPartner x = some y := by
  decide

/-- The ring's signal-flow matrix. -/
noncomputable def ringM : Matrix (IN1 × P4) (IN1 × P4) ℂ :=
  connMat ringConns * bigS ringInsts

theorem ringM_eq :
    ringM = fun x q =>
      ((ringPartner x).map (fun r => bigS ringInsts r q)).getD 0 := by
  show connMat ringConns * bigS ringInsts = _
  exact connMat_mul_of_partner ringConns ringPartner ringPartner_spec
    (bigS ringInsts)

/-- The exact inverse of `1 - ringM`. -/
noncomputable def ringN : Matrix (IN1 × P4) (IN1 × P4) ℂ :=
  fun p q =>
    if p = q then (if p = (IN1.dev, P4.in1) then 2 else 1)
    else if p = (IN1.dev, P4.in1) ∧ q = (IN1.dev, P4.in0) then 1 else 0

theorem ring_inv : (1 - ringM) * ringN = 1 := by
  ext x y
  rw [Matrix.mul_apply, Fintype.sum_prod_type, sum_IN1, sum_P4]
  obtain ⟨xi, xp⟩ := x
  obtain ⟨yi, yp⟩ := y
  cases xi
  cases yi
  cases xp <;> cases yp <;>
    (simp [ringM_eq, ringPartner, bigS, instSMat, assocFind, sdictToMat,
      ringCouplerSD, lookupD, ringN, Matrix.sub_apply, Matrix.one_apply] <;>
      norm_num)

/-- The dense backend on the ring netlist: resonant transmission `1`. -/
theorem ring_dense :
    circuitDense ringInsts ringConns ringPorts EP2.eout0 EP2.ein0 = 1 := by
  have hred : circuitDense ringInsts ringConns ringPorts EP2.eout0 EP2.ein0
      = (bigS ringInsts *ᵥ solveAmps (bigS ringInsts) (connMat ringConns)
          (Pi.single (IN1.dev, P4.in0) 1)) (IN1.dev, P4.out0) := rfl
  rw [hred, solveAmps,
    show connMat ringConns * bigS ringInsts = ringM from rfl,
    Matrix.inv_eq_right_inv ring_inv]
  have hN : ringN *ᵥ Pi.single (IN1.dev, P4.in0) (1 : ℂ)
      = Pi.single (IN1.dev, P4.in0) 1 + Pi.single (IN1.dev, P4.in1) 1 := by
    rw [Matrix.mulVec_single]
    funext x
    obtain ⟨xi, xp⟩ := x
    cases xi
    cases xp <;> simp [ringN, Pi.single_apply]
  rw [hN]
  simp [Matrix.mulVec_add, Matrix.mulVec_single, bigS, instSMat, assocFind,
    sdictToMat, ringCouplerSD, lookupD, ringInsts]
  norm_num

theorem ring_col0 :
    ringM *ᵥ Pi.single (IN1.dev, P4.in0) (1 : ℂ)
      = Pi.single (IN1.dev, P4.in1) (1 / 2) := by
  rw [Matrix.mulVec_single]
  funext x
  rw [ringM_eq]
  obtain ⟨xi, xp⟩ := x
  cases xi
  cases xp <;>
    simp [ringPartner, bigS, instSMat, assocFind, sdictToMat, ringCouplerSD,
      lookupD, Pi.single_apply]

theorem ring_col1 (c : ℂ) :
    ringM *ᵥ Pi.single (IN1.dev, P4.in1) c
      = Pi.single (IN1.dev, P4.in1) (c / 2) := by
  rw [Matrix.mulVec_single]
  funext x
  rw [ringM_eq]
  obtain ⟨xi, xp⟩ := x
  cases xi
  cases xp <;>
    simp [ringPartner, bigS, instSMat, assocFind, sdictToMat, ringCouplerSD,
      lookupD, Pi.single_apply] <;> ring

/-- The forward backend on the ring netlist: the truncated series `15/16`. -/
theorem ring_forward :
    circuitForward ringInsts ringConns ringPorts EP2.eout0 EP2.ein0
      = 15 / 16 := by
  have hred : circuitForward ringInsts ringConns ringPorts EP2.eout0 EP2.ein0
      = (bigS ringInsts *ᵥ forwardAmps (bigS ringInsts) (connMat ringConns)
          (Pi.single (IN1.dev, P4.in0) 1)) (IN1.dev, P4.out0) := rfl
  rw [hred, forwardAmps,
    show connMat ringConns * bigS ringInsts = ringM from rfl,
    show Fintype.card (IN1 × P4) = 4 from rfl]
  rw [show (∑ k ∈ Finset.range 4, ringM ^ k)
      = 1 + ringM + ringM ^ 2 + ringM ^ 3 by simp [Finset.sum_range_succ]]
  rw [Matrix.add_mulVec, Matrix.add_mulVec, Matrix.add_mulVec,
    Matrix.one_mulVec, pow_two, ← Matrix.mulVec_mulVec,
    show ringM ^ 3 = ringM * (ringM * ringM) by
      rw [pow_succ, pow_two, mul_assoc],
    ← Matrix.mulVec_mulVec, ← Matrix.mulVec_mulVec,
    ring_col0, ring_col1, ring_col1]
  simp only [Matrix.mulVec_add, Matrix.mulVec_single, Pi.add_apply]
  simp [bigS, instSMat, assocFind, sdictToMat, ringCouplerSD, lookupD,
    ringInsts]
  norm_num

/-- Claim C2, counterexample: the ring netlist's only instance has every
backward coupling term equal to zero (all declared couplings go from an
input to an output port), yet the forward backend differs from the
dense/klu backends by far more than the claimed `1e-6` relative tolerance. -/
theorem C2_counterexample :
    (∀ p q : P4, sdictToMat ringCouplerSD p q ≠ 0 →
      (q = P4.in0 ∨ q = P4.in1) ∧ (p = P4.out0 ∨ p = P4.out1)) ∧
    1e-6 * Complex.abs (circuitDense ringInsts ringConns ringPorts
        EP2.eout0 EP2.ein0) <
      Complex.abs (circuitForward ringInsts ringConns ringPorts
          EP2.eout0 EP2.ein0 -
        circuitDense ringInsts ringConns ringPorts EP2.eout0 EP2.ein0) := by
  constructor
  · intro p q h
    cases p <;> cases q <;>
      simp [sdictToMat, ringCouplerSD, lookupD] at h ⊢
  · rw [ring_dense, ring_forward]
    rw [show (15 / 16 : ℂ) - 1 = ((-(1 / 16) : ℝ) : ℂ) by push_cast; ring]
    rw [Complex.abs_ofReal, abs_neg, abs_of_pos (by norm_num : (0 : ℝ) < 1 / 16)]
    simp only [AbsoluteValue.map_one]
    norm_num

/-- Witness for the amended C2 theorem: a netlist with no connections has
zero signal-flow matrix, and all backends agree on it. -/
theorem C2_backend_agreement_witness :
    circuitKlu ringInsts [] ringPorts EP2.eout0 EP2.ein0
        = circuitDense ringInsts [] ringPorts EP2.eout0 EP2.ein0 ∧
      circuitForward ringInsts [] ringPorts EP2.eout0 EP2.ein0
        = circuitDense ringInsts [] ringPorts EP2.eout0 EP2.ein0 ∧
      Complex.abs (circuitForward ringInsts [] ringPorts EP2.eout0 EP2.ein0 -
          circuitDense ringInsts [] ringPorts EP2.eout0 EP2.ein0)
        ≤ 1e-6 * Complex.abs (circuitDense ringInsts [] ringPorts
            EP2.eout0 EP2.ein0) :=
  C2_backend_agreement ringInsts [] ringPorts
    (by
      have hc : connMat ([] : List ((IN1 × P4) × (IN1 × P4)))
          = (0 : Matrix (IN1 × P4) (IN1 × P4) ℂ) := by
        ext x y
        simp [connMat]
      rw [hc, zero_mul]
      exact zero_pow (by decide))
    EP2.eout0 EP2.ein0

/-! ## Claim C3: order-independence of flattening -/

theorem instSMat_perm [DecidableEq ι] [Zero R] {l₁ l₂ : List (ι × Inst P R)}
    (hp : l₁.Perm l₂) (hn : (l₁.map Prod.fst).Nodup) (i : ι) :
    instSMat l₂ i = instSMat l₁ i := by
  rw [instSMat, instSMat, assocFind_perm Prod.fst hp hn i]

theorem bigS_perm [DecidableEq ι] [Zero R] {l₁ l₂ : List (ι × Inst P R)}
    (hp : l₁.Perm l₂) (hn : (l₁.map Prod.fst).Nodup) :
    bigS l₂ = bigS l₁ := by
  funext x y
  rw [bigS, bigS, instSMat_perm hp hn]

theorem extLoc_perm [DecidableEq ε] {α : Type} {l₁ l₂ : List (ε × α)}
    (hp : l₁.Perm l₂) (hn : (l₁.map Prod.fst).Nodup) (e : ε) :
    extLoc l₂ e = extLoc l₁ e := by
  rw [extLoc, extLoc, assocFind_perm Prod.fst hp hn e]

theorem connMat_perm [DecidableEq ι] [DecidableEq P] [Zero R] [One R]
    {l₁ l₂ : List ((ι × P) × (ι × P))} (hp : l₁.Perm l₂) :
    (connMat l₂ : Matrix (ι × P) (ι × P) R) = connMat l₁ := by
  funext x y
  rw [connMat, connMat]
  exact if_congr (or_congr hp.mem_iff.symm hp.mem_iff.symm) rfl rfl

/-- Claim C3: permuting the listed order of a netlist's connections and/or
instances (and of the external-port table) before flattening leaves the
final S-matrix of the default (dense) and sparse-direct (klu) backends
unchanged — exactly, hence in particular within `1e-9`. -/
theorem C3_order_independence [Fintype ι] [Fintype P] [DecidableEq ι]
    [DecidableEq P] [DecidableEq ε]
    (insts insts2 : List (ι × Inst P ℂ))
    (conns conns2 : List ((ι × P) × (ι × P)))
    (ports ports2 : List (ε × (ι × P)))
    (hi : insts.Perm insts2) (hc : conns.Perm conns2) (hpp : ports.Perm ports2)
    (hni : (insts.map Prod.fst).Nodup) (hnp : (ports.map Prod.fst).Nodup)
    (eo ei : ε) :
    (circuitDense insts2 conns2 ports2 eo ei
        = circuitDense insts conns ports eo ei ∧
      circuitKlu insts2 conns2 ports2 eo ei
        = circuitKlu insts conns ports eo ei) ∧
    (Complex.abs (circuitDense insts2 conns2 ports2 eo ei -
          circuitDense insts conns ports eo ei) ≤ 1e-9 ∧
      Complex.abs (circuitKlu insts2 conns2 ports2 eo ei -
          circuitKlu insts conns ports eo ei) ≤ 1e-9) := by
  have hS : bigS insts2 = bigS insts := bigS_perm hi hni
  have hC : (connMat conns2 : Matrix (ι × P) (ι × P) ℂ) = connMat conns :=
    connMat_perm hc
  have hL : ∀ e, extLoc ports2 e = extLoc ports e := extLoc_perm hpp hnp
  have hd : circuitDense insts2 conns2 ports2 eo ei
      = circuitDense insts conns ports eo ei := by
    simp only [circuitDense, hS, hC, hL]
  have hk : circuitKlu insts2 conns2 ports2 eo ei
      = circuitKlu insts conns ports eo ei := hd
  refine ⟨⟨hd, hk⟩, ?_, ?_⟩
  · rw [hd, sub_self]
    simp only [map_zero]
    norm_num
  · rw [hk, sub_self]
    simp only [map_zero]
    norm_num

/-- `mziConns` with its first two entries swapped. -/
def mziConnsPerm : List ((IN4 × P4) × (IN4 × P4)) :=
  [((.btm, .out0), (.rgt, .in0)), ((.lft, .out0), (.btm, .in0)),
   ((.lft, .out1), (.top, .in0)), ((.top, .out0), (.rgt, .in1))]

/-- `mziPorts` with its first two entries swapped. -/
def mziPortsPerm : List (EP4 × (IN4 × P4)) :=
  [(.ein1, (.lft, .in1)), (.ein0, (.lft, .in0)),
   (.eout0, (.rgt, .out0)), (.eout1, (.rgt, .out1))]

/-- Witness for C3 at the concrete MZI netlist with its connection and
external-port lists permuted. -/
theorem C3_order_independence_witness :
    (circuitDense mziNetInsts mziConnsPerm mziPortsPerm EP4.eout0 EP4.ein0
        = circuitDense mziNetInsts mziConns mziPorts EP4.eout0 EP4.ein0 ∧
      circuitKlu mziNetInsts mziConnsPerm mziPortsPerm EP4.eout0 EP4.ein0
        = circuitKlu mziNetInsts mziConns mziPorts EP4.eout0 EP4.ein0) ∧
    (Complex.abs (circuitDense mziNetInsts mziConnsPerm mziPortsPerm
          EP4.eout0 EP4.ein0 -
        circuitDense mziNetInsts mziConns mziPorts EP4.eout0 EP4.ein0) ≤ 1e-9 ∧
      Complex.abs (circuitKlu mziNetInsts mziConnsPerm mziPortsPerm
          EP4.eout0 EP4.ein0 -
        circuitKlu mziNetInsts mziConns mziPorts EP4.eout0 EP4.ein0) ≤ 1e-9) :=
  C3_order_independence mziNetInsts mziNetInsts mziConns mziConnsPerm
    mziPorts mziPortsPerm (List.Perm.refl _) (List.Perm.swap _ _ _)
    (List.Perm.swap _ _ _) (by decide) (by decide) EP4.eout0 EP4.ein0

/-! ## Claim C4: representation round-trips (spec-modelled, §4.1) -/

/-- Modelled from the spec: the SDense representation — a square complex
matrix over a deterministic enumeration of the dictionary's declared ports,
paired with that port enumeration (position = matrix index); conversion
from SDict fills zeros for all non-declared pairs. -/
structure SDense : Type where
  ports : List String
  mat : Fin ports.length → Fin ports.length → ℂ

/-- Conversion SDict → SDense (spec §4.1). -/
def sdictToDense (d : SDictOf String ℂ) : SDense :=
  ⟨portsOf d, fun i j => lookupD d ((portsOf d).get i, (portsOf d).get j)⟩

/-- Conversion SDense → SDict: declare every port pair of the enumeration
with its matrix entry. -/
def denseToSDict (s : SDense) : SDictOf String ℂ :=
  ((List.finRange s.ports.length).map (fun i =>
    (List.finRange s.ports.length).map (fun j =>
      ((s.ports.get i, s.ports.get j), s.mat i j)))).flatten

/-- Position of the first occurrence of an element (the index the
deterministic port enumeration assigns to a port). -/
def idxOf [DecidableEq π] : List π → π → ℕ
  | [], _ => 0
  | a :: l, p => if a = p then 0 else idxOf l p + 1

/-- Modelled from the spec: the SCoo representation — row-index array,
column-index array and value array of equal length, paired with the
port-to-index map (position in `pm` = index). -/
structure SCoo : Type where
  pm : List String
  ri : List ℕ
  ci : List ℕ
  vals : List ℂ

/-- Conversion SDict → SCoo: one coordinate triple per declared entry
(declared zeros included). -/
def sdictToCoo (d : SDictOf String ℂ) : SCoo :=
  ⟨portsOf d, d.map (fun e => idxOf (portsOf d) e.1.1),
    d.map (fun e => idxOf (portsOf d) e.1.2), d.map (fun e => e.2)⟩

/-- Conversion SCoo → SDict: one declared entry per coordinate triple. -/
def cooToSDict (s : SCoo) : SDictOf String ℂ :=
  (s.ri.zip (s.ci.zip s.vals)).map
    (fun t => ((s.pm.getD t.1 "", s.pm.getD t.2.1 ""), t.2.2))

theorem mem_portsOf_of_mem_keys [DecidableEq π] {d : SDictOf π R}
    {k : π × π} (hk : k ∈ keys d) : k.1 ∈ portsOf d ∧ k.2 ∈ portsOf d := by
  rcases List.mem_map.mp hk with ⟨e, he, hek⟩
  constructor
  · rw [portsOf, List.mem_dedup]
    exact List.mem_flatten.mpr ⟨[e.1.1, e.1.2], List.mem_map.mpr ⟨e, he, rfl⟩,
      by rw [← hek]; exact List.mem_cons_self _ _⟩
  · rw [portsOf, List.mem_dedup]
    exact List.mem_flatten.mpr ⟨[e.1.1, e.1.2], List.mem_map.mpr ⟨e, he, rfl⟩,
      by rw [← hek]; simp⟩

/-- Every entry of the dense round-trip carries the value the original
dictionary looks up at its key. -/
theorem denseRT_entries (d : SDictOf String ℂ) :
    ∀ e ∈ denseToSDict (sdictToDense d), e.2 = lookupD d e.1 := by
  intro e he
  rcases List.mem_flatten.mp he with ⟨row, hrow, herow⟩
  rcases List.mem_map.mp hrow with ⟨i, _, hi⟩
  rcases List.mem_map.mp (by rw [← hi] at herow; exact herow) with ⟨j, _, hj⟩
  rw [← hj]
  rfl

/-- A dictionary whose entries all agree with `d`'s lookup looks up to the
same value as `d` on its declared keys. -/
theorem lookupD_of_entries (d : SDictOf String ℂ) :
    ∀ (l : SDictOf String ℂ), (∀ e ∈ l, e.2 = lookupD d e.1) →
      ∀ k ∈ keys l, lookupD l k = lookupD d k := by
  intro l
  induction l with
  | nil => intro _ k hk; simp [keys] at hk
  | cons e es ih =>
    intro h k hk
    by_cases he : e.1 = k
    · rw [lookupD, if_pos he, h e (List.mem_cons_self _ _), he]
    · have hm : k ∈ keys es := by
        rcases (List.mem_cons.mp (by simpa [keys_cons] using hk)) with h' | h'
        · exact absurd h'.symm he
        · exact h'
      rw [lookupD, if_neg he]
      exact ih (fun f hf => h f (List.mem_cons_of_mem _ hf)) k hm

/-- Declared keys of `d` are declared in the dense round-trip. -/
theorem mem_keys_denseRT (d : SDictOf String ℂ)
    {k : String × String} (hk : k ∈ keys d) :
    k ∈ keys (denseToSDict (sdictToDense d)) := by
  obtain ⟨h1, h2⟩ := mem_portsOf_of_mem_keys hk
  rcases List.mem_iff_get.mp h1 with ⟨i, hi⟩
  rcases List.mem_iff_get.mp h2 with ⟨j, hj⟩
  refine List.mem_map.mpr ⟨((k.1, k.2), lookupD d (k.1, k.2)), ?_, rfl⟩
  refine List.mem_flatten.mpr
    ⟨(List.finRange (portsOf d).length).map (fun j' =>
        (((portsOf d).get i, (portsOf d).get j'),
          lookupD d ((portsOf d).get i, (portsOf d).get j'))),
      List.mem_map.mpr ⟨i, List.mem_finRange i, rfl⟩, ?_⟩
  refine List.mem_map.mpr ⟨j, List.mem_finRange j, ?_⟩
  rw [hi, hj]

theorem getD_idxOf [DecidableEq π] {l : List π} {p : π} (h : p ∈ l)
    (dflt : π) : l.getD (idxOf l p) dflt = p := by
  induction l with
  | nil => simp at h
  | cons a t ih =>
    by_cases ha : a = p
    · simp [idxOf, ha]
    · have hm : p ∈ t := by
        rcases List.mem_cons.mp h with h' | h'
        · exact absurd h'.symm ha
        · exact h'
      simp only [idxOf, if_neg ha, List.getD_cons_succ]
      exact ih hm

/-- The SCoo round-trip reconstructs the dictionary entry list exactly. -/
theorem cooRT (d : SDictOf String ℂ) : cooToSDict (sdictToCoo d) = d := by
  have key : ∀ (l : SDictOf String ℂ),
      (∀ e ∈ l, e.1.1 ∈ portsOf d ∧ e.1.2 ∈ portsOf d) →
      ((l.map (fun e => idxOf (portsOf d) e.1.1)).zip
        ((l.map (fun e => idxOf (portsOf d) e.1.2)).zip
          (l.map (fun e => e.2)))).map
        (fun t => (((portsOf d).getD t.1 "", (portsOf d).getD t.2.1 ""),
          t.2.2)) = l := by
    intro l
    induction l with
    | nil => intro _; rfl
    | cons e es ih =>
      intro h
      obtain ⟨h1, h2⟩ := h e (List.mem_cons_self _ _)
      simp only [List.map_cons, List.zip_cons_cons]
      rw [ih (fun f hf => h f (List.mem_cons_of_mem _ hf))]
      rw [getD_idxOf h1, getD_idxOf h2]
  exact key d (fun e he => mem_portsOf_of_mem_keys
    (List.mem_map.mpr ⟨e, he, rfl⟩))

/-- Claim C4: for every SDict `s`, converting to SDense and back and
converting to SCoo and back reproduces every declared entry exactly, and
every non-declared port pair evaluates to zero in the round-tripped result
(for the SCoo round-trip the entry list is in fact reproduced exactly). -/
theorem C4_roundtrip (d : SDictOf String ℂ) :
    (∀ k ∈ keys d,
        lookupD (denseToSDict (sdictToDense d)) k = lookupD d k) ∧
    (∀ k, k ∉ keys d → lookupD (denseToSDict (sdictToDense d)) k = 0) ∧
    cooToSDict (sdictToCoo d) = d ∧
    (∀ k ∈ keys d, lookupD (cooToSDict (sdictToCoo d)) k = lookupD d k) ∧
    (∀ k, k ∉ keys d → lookupD (cooToSDict (sdictToCoo d)) k = 0) := by
  refine ⟨fun k hk => ?_, fun k hk => ?_, cooRT d, fun k _ => by rw [cooRT d],
    fun k hk => by rw [cooRT d]; exact lookupD_eq_zero_of_not_mem hk⟩
  · exact lookupD_of_entries d _ (denseRT_entries d) k (mem_keys_denseRT d hk)
  · by_cases hr : k ∈ keys (denseToSDict (sdictToDense d))
    · rw [lookupD_of_entries d _ (denseRT_entries d) k hr]
      exact lookupD_eq_zero_of_not_mem hk
    · exact lookupD_eq_zero_of_not_mem hr

/-- Witness for C4 at the one-entry dictionary `{("a","b") ↦ 2}`. -/
theorem C4_roundtrip_witness :
    lookupD (denseToSDict (sdictToDense [(("a", "b"), (2 : ℂ))])) ("a", "b")
        = lookupD [(("a", "b"), (2 : ℂ))] ("a", "b") ∧
      lookupD (denseToSDict (sdictToDense [(("a", "b"), (2 : ℂ))])) ("b", "a")
        = 0 ∧
      cooToSDict (sdictToCoo [(("a", "b"), (2 : ℂ))]) = [(("a", "b"), (2 : ℂ))] :=
  ⟨(C4_roundtrip _).1 ("a", "b") (by decide),
    (C4_roundtrip _).2.1 ("b", "a") (by decide),
    (C4_roundtrip _).2.2.1⟩

/-! ## Claim C5: build-time structural failure -/

/-- Claim C5: for every netlist containing an instance port that appears
neither in the connections nor in the external-port table, circuit
construction fails at build time with an error naming an offending port —
the port is never silently dropped. -/
theorem C5_build_failure [Fintype ι] [Fintype P] [DecidableEq ι]
    [DecidableEq P] [DecidableEq ε] (insts : List (ι × Inst P ℂ))
    (conns : List ((ι × P) × (ι × P))) (ports : List (ε × (ι × P)))
    (h : ∃ x ∈ exposedAll insts, ¬ referenced conns ports x) :
    ∃ i p, buildCircuit insts conns ports
        = Except.error (BuildError.unconnectedPort i p) ∧
      (i, p) ∈ exposedAll insts ∧ ¬ referenced conns ports (i, p) := by
  obtain ⟨x, hx, hr⟩ := h
  have hmem : x ∈ offendingPorts insts conns ports :=
    List.mem_filter.mpr ⟨hx, by simp [hr]⟩
  cases hoff : offendingPorts insts conns ports with
  | nil => rw [hoff] at hmem; simp at hmem
  | cons y t =>
    have hy : y ∈ offendingPorts insts conns ports := by
      rw [hoff]; exact List.mem_cons_self _ _
    have hspec := List.mem_filter.mp hy
    refine ⟨y.1, y.2, ?_, ?_, ?_⟩
    · simp [buildCircuit, hoff]
    · simpa using hspec.1
    · have := hspec.2
      simp only [Bool.not_eq_eq_eq_not, Bool.not_true, decide_eq_false_iff_not]
        at this
      simpa using this

/-- A one-instance netlist whose `out0` port is neither connected nor
exported. -/
noncomputable def dangInsts : List (IN1 × Inst P4 ℂ) :=
  [(.dev, ⟨[P4.in0, P4.out0], 0⟩)]

/-- External-port table exposing only `in0`. -/
def dangPorts : List (EP2 × (IN1 × P4)) := [(.ein0, (IN1.dev, P4.in0))]

/-- Witness for C5 at the concrete dangling-port netlist. -/
theorem C5_build_failure_witness :
    ∃ i p, buildCircuit dangInsts [] dangPorts
        = Except.error (BuildError.unconnectedPort i p) ∧
      (i, p) ∈ exposedAll dangInsts ∧
      ¬ referenced ([] : List ((IN1 × P4) × (IN1 × P4))) dangPorts (i, p) :=
  C5_build_failure dangInsts [] dangPorts
    ⟨(IN1.dev, P4.out0), by decide, by decide⟩

/-! ## Claim C8: multimode lifting (spec-modelled, §4.4) -/

/-- Modelled from the spec: the default multimode lifting rule of the
multimode lifter (missing from the sources) for a model whose ports are not
mode-resolved — every declared entry is replicated on the mode diagonal
(`p@m`, `q@m` for each declared mode `m`), with no off-diagonal (cross-mode)
entry introduced. -/
def liftModes (modes : List String) (d : SDictOf String ℂ) :
    SDictOf String ℂ :=
  (modes.map (fun m => d.map (fun e =>
    ((e.1.1 ++ "@" ++ m, e.1.2 ++ "@" ++ m), e.2)))).flatten

/-- Claim C8: lifting the single-mode model `{(in0,out0) ↦ 1}` into the
2-mode circuit with modes {TE, TM} yields exactly
`(in0@TE,out0@TE) ↦ 1` and `(in0@TM,out0@TM) ↦ 1`, and all four cross-mode
pairs evaluate to zero. -/
theorem C8_multimode_lift :
    liftModes ["TE", "TM"] [(("in0", "out0"), (1 : ℂ))]
        = [(("in0@TE", "out0@TE"), (1 : ℂ)),
           (("in0@TM", "out0@TM"), (1 : ℂ))] ∧
      lookupD (liftModes ["TE", "TM"] [(("in0", "out0"), (1 : ℂ))])
          ("in0@TE", "out0@TM") = 0 ∧
      lookupD (liftModes ["TE", "TM"] [(("in0", "out0"), (1 : ℂ))])
          ("in0@TM", "out0@TE") = 0 ∧
      lookupD (liftModes ["TE", "TM"] [(("in0", "out0"), (1 : ℂ))])
          ("out0@TM", "in0@TE") = 0 ∧
      lookupD (liftModes ["TE", "TM"] [(("in0", "out0"), (1 : ℂ))])
          ("out0@TE", "in0@TM") = 0 :=
  ⟨rfl, rfl, rfl, rfl, rfl⟩

/-! ## Claim C9: power conservation of the ideal coupler (source-derived) -/

/-- Claim C9: for the notebook coupler model at `coupling = 0.5`
(`tau = (1-0.5)**0.5`, `kappa = 0.5**0.5`), the returned S-matrix satisfies
`|S(in0,out0)|² + |S(in0,out1)|² = 1` within `1e-9` (exactly, here). -/
theorem C9_coupler_power :
    |Complex.abs (lookupD (couplerSD "in0" "in1" "out0" "out1" 0.5)
          ("in0", "out0")) ^ 2 +
        Complex.abs (lookupD (couplerSD "in0" "in1" "out0" "out1" 0.5)
          ("in0", "out1")) ^ 2 - 1| ≤ 1e-9 := by
  have h1 : lookupD (couplerSD "in0" "in1" "out0" "out1" 0.5) ("in0", "out0")
      = ((Real.sqrt (1 - 0.5) : ℝ) : ℂ) := rfl
  have h2 : lookupD (couplerSD "in0" "in1" "out0" "out1" 0.5) ("in0", "out1")
      = Complex.I * ((Real.sqrt 0.5 : ℝ) : ℂ) := rfl
  rw [h1, h2, Complex.abs_ofReal, AbsoluteValue.map_mul, Complex.abs_I,
    Complex.abs_ofReal, one_mul, abs_of_nonneg (Real.sqrt_nonneg _),
    abs_of_nonneg (Real.sqrt_nonneg _), Real.sq_sqrt (by norm_num : (0:ℝ) ≤ 1 - 0.5),
    Real.sq_sqrt (by norm_num : (0:ℝ) ≤ 0.5)]
  norm_num

/-! ## Claim C10: well-formedness of the cascaded-AMZI netlist
(source-derived from `cascaded_amzi_generator`)

The generator names its instances `left_{i}`, `right_{i}`, `top_{i}`,
`btm_{i}` for `i = 1..n`; the f-string naming is injective, so names are
modelled as (kind, stage-index) pairs. -/

/-- Instance-name kinds of `cascaded_amzi_generator`. -/
inductive AKind : Type
  | left | right | top | btm
deriving DecidableEq

/-- A structured instance name `f"{kind}_{i}"`. -/
abbrev AName := AKind × ℕ

/-- The two component references of the generator's model table. -/
inductive AComp : Type
  | coupler | waveguide
deriving DecidableEq

/-- The ports a component model exposes: the ports declared by its
S-dictionary (the amplitudes are irrelevant to the key set). -/
def compPorts : AComp → List P4
  | .coupler => portsOf (couplerGen P4.in0 P4.in1 P4.out0 P4.out1 (0 : ℂ) 0)
  | .waveguide => portsOf (wgGen P4.in0 P4.out0 (0 : ℂ))

theorem compPorts_coupler :
    compPorts AComp.coupler = [P4.in0, P4.out0, P4.out1, P4.in1] := rfl

theorem compPorts_waveguide :
    compPorts AComp.waveguide = [P4.out0, P4.in0] := rfl

/-- The four instances the generator adds at stage `i`. -/
def amziStageInsts (i : ℕ) : List (AName × AComp) :=
  [((AKind.left, i), AComp.coupler), ((AKind.right, i), AComp.coupler),
   ((AKind.top, i), AComp.waveguide), ((AKind.btm, i), AComp.waveguide)]

/-- The instance table after the loop `i = 1..n`. -/
def amziInstances : ℕ → List (AName × AComp)
  | 0 => []
  | n + 1 => amziInstances n ++ amziStageInsts (n + 1)

/-- The connections the generator adds at stage `i`: the four internal AMZI
links, plus (for `i > 1`) the two cross links from `right_{i-1}`. -/
def amziStageConns (i : ℕ) : List ((AName × P4) × (AName × P4)) :=
  [(((AKind.left, i), P4.out0), ((AKind.btm, i), P4.in0)),
   (((AKind.btm, i), P4.out0), ((AKind.right, i), P4.in0)),
   (((AKind.left, i), P4.out1), ((AKind.top, i), P4.in0)),
   (((AKind.top, i), P4.out0), ((AKind.right, i), P4.in1))]
  ++ (if 1 < i then
    [(((AKind.right, i - 1), P4.out0), ((AKind.left, i), P4.in1)),
     (((AKind.right, i - 1), P4.out1), ((AKind.left, i), P4.in0))]
  else [])

/-- The connection table after the loop `i = 1..n`. -/
def amziConnections : ℕ → List ((AName × P4) × (AName × P4))
  | 0 => []
  | n + 1 => amziConnections n ++ amziStageConns (n + 1)

/-- The external-port table: `in0/in1` at `left_1`, `out0/out1` at
`right_n`. -/
def amziPorts (n : ℕ) : List (EP4 × (AName × P4)) :=
  [(.ein0, ((AKind.left, 1), P4.in0)), (.ein1, ((AKind.left, 1), P4.in1)),
   (.eout0, ((AKind.right, n), P4.out0)),
   (.eout1, ((AKind.right, n), P4.out1))]

/-- Both endpoints of every listed connection. -/
def endpointsOf (conns : List ((AName × P4) × (AName × P4))) :
    List (AName × P4) :=
  (conns.map (fun c => [c.1, c.2])).flatten

/-- Every reference the netlist makes to an instance port: connection
endpoints and external-port targets. -/
def amziRefs (n : ℕ) : List (AName × P4) :=
  endpointsOf (amziConnections n) ++ (amziPorts n).map Prod.snd

/-- All ports of the stage-`i` instances. -/
def stageAllPorts (i : ℕ) : List (AName × P4) :=
  ((amziStageInsts i).map
    (fun e => (compPorts e.2).map (fun p => (e.1, p)))).flatten

/-- Every instance port the netlist's instances expose. -/
def amziAllPorts : ℕ → List (AName × P4)
  | 0 => []
  | n + 1 => amziAllPorts n ++ stageAllPorts (n + 1)

theorem amziAllPorts_eq (n : ℕ) :
    amziAllPorts n = ((amziInstances n).map
      (fun e => (compPorts e.2).map (fun p => (e.1, p)))).flatten := by
  induction n with
  | zero => rfl
  | succ n ih =>
    rw [amziAllPorts, amziInstances, List.map_append, List.flatten_append, ih]
    rfl

theorem amziInstances_length (n : ℕ) : (amziInstances n).length = 4 * n := by
  induction n with
  | zero => rfl
  | succ n ih =>
    rw [amziInstances, List.length_append, ih]
    rw [show (amziStageInsts (n + 1)).length = 4 from rfl]
    omega

theorem amziConnections_length (n : ℕ) (hn : 1 ≤ n) :
    (amziConnections n).length = 6 * n - 2 := by
  obtain ⟨m, rfl⟩ : ∃ m, n = m + 1 := ⟨n - 1, by omega⟩
  induction m with
  | zero => rfl
  | succ m ih =>
    rw [amziConnections, List.length_append, ih (by omega)]
    rw [amziStageConns, List.length_append, if_pos (by omega : 1 < m + 1 + 1)]
    rw [show ([(((AKind.left, m + 1 + 1), P4.out0),
        ((AKind.btm, m + 1 + 1), P4.in0)),
      (((AKind.btm, m + 1 + 1), P4.out0), ((AKind.right, m + 1 + 1), P4.in0)),
      (((AKind.left, m + 1 + 1), P4.out1), ((AKind.top, m + 1 + 1), P4.in0)),
      (((AKind.top, m + 1 + 1), P4.out0),
        ((AKind.right, m + 1 + 1), P4.in1))]).length = 4 from rfl]
    rw [show ([(((AKind.right, m + 1 + 1 - 1), P4.out0),
        ((AKind.left, m + 1 + 1), P4.in1)),
      (((AKind.right, m + 1 + 1 - 1), P4.out1),
        ((AKind.left, m + 1 + 1), P4.in0))]).length = 2 from rfl]
    omega

theorem endpointsOf_append (l₁ l₂ : List ((AName × P4) × (AName × P4))) :
    endpointsOf (l₁ ++ l₂) = endpointsOf l₁ ++ endpointsOf l₂ := by
  simp [endpointsOf]

/-- Number of occurrences of an instance port in a reference list. -/
def countOcc (x : AName × P4) (l : List (AName × P4)) : ℕ :=
  l.countP (fun y => decide (y = x))

theorem countOcc_append (x : AName × P4) (l₁ l₂ : List (AName × P4)) :
    countOcc x (l₁ ++ l₂) = countOcc x l₁ + countOcc x l₂ :=
  List.countP_append _ _ _

theorem countOcc_eq_zero_of_not_mem {x : AName × P4} {l : List (AName × P4)}
    (h : x ∉ l) : countOcc x l = 0 := by
  refine List.countP_eq_zero.mpr fun a ha => ?_
  simp only [decide_eq_true_eq]
  intro hc
  exact h (hc ▸ ha)

theorem countOcc_eq_one_of_mem {x : AName × P4} {l : List (AName × P4)}
    (d : l.Nodup) (h : x ∈ l) : countOcc x l = 1 := by
  induction l with
  | nil => simp at h
  | cons a t ih =>
    obtain ⟨hna, hnt⟩ := List.nodup_cons.mp d
    rcases List.mem_cons.mp h with rfl | hm
    · have h0 : List.countP (fun y => decide (y = x)) t = 0 :=
        countOcc_eq_zero_of_not_mem hna
      rw [countOcc, List.countP_cons, h0]
      simp
    · have hax : ¬(a = x) := fun hc => hna (hc ▸ hm)
      rw [countOcc, List.countP_cons]
      simp only [decide_eq_true_eq]
      rw [if_neg hax, add_zero]
      exact ih hnt hm

theorem stageAllPorts_eq (i : ℕ) : stageAllPorts i =
    [((AKind.left, i), P4.in0), ((AKind.left, i), P4.out0),
     ((AKind.left, i), P4.out1), ((AKind.left, i), P4.in1),
     ((AKind.right, i), P4.in0), ((AKind.right, i), P4.out0),
     ((AKind.right, i), P4.out1), ((AKind.right, i), P4.in1),
     ((AKind.top, i), P4.out0), ((AKind.top, i), P4.in0),
     ((AKind.btm, i), P4.out0), ((AKind.btm, i), P4.in0)] := rfl

/-- The references made by any generated netlist count every instance port
exactly as often as the instance table exposes it. -/
theorem amziRefs_count (n : ℕ) (x : AName × P4) :
    countOcc x (amziRefs (n + 1)) = countOcc x (amziAllPorts (n + 1)) := by
  induction n with
  | zero =>
    show countOcc x (amziRefs 1) = countOcc x (amziAllPorts 1)
    simp only [amziRefs, amziConnections, amziStageConns, endpointsOf,
      amziPorts, amziAllPorts, stageAllPorts, amziStageInsts,
      compPorts_coupler, compPorts_waveguide, List.map_cons, List.map_nil,
      List.flatten_cons, List.flatten_nil, List.nil_append, List.append_nil,
      Nat.lt_irrefl, if_false]
    simp only [countOcc, List.countP_append, List.countP_cons,
      List.countP_nil, List.cons_append, List.nil_append]
    ring
  | succ n ih =>
    show countOcc x (amziRefs (n + 2)) = countOcc x (amziAllPorts (n + 2))
    have h1 : countOcc x (amziRefs (n + 2))
        = (countOcc x (endpointsOf (amziConnections (n + 1)))
            + countOcc x (endpointsOf (amziStageConns (n + 2))))
          + countOcc x ((amziPorts (n + 2)).map Prod.snd) := by
      rw [amziRefs,
        show amziConnections (n + 2)
          = amziConnections (n + 1) ++ amziStageConns (n + 2) from rfl,
        endpointsOf_append, countOcc_append, countOcc_append]
    have h2 : countOcc x (amziAllPorts (n + 2))
        = countOcc x (amziAllPorts (n + 1))
          + countOcc x (stageAllPorts (n + 2)) := by
      rw [show amziAllPorts (n + 2)
          = amziAllPorts (n + 1) ++ stageAllPorts (n + 2) from rfl,
        countOcc_append]
    have h3 : countOcc x (amziRefs (n + 1))
        = countOcc x (endpointsOf (amziConnections (n + 1)))
          + countOcc x ((amziPorts (n + 1)).map Prod.snd) := by
      rw [amziRefs, countOcc_append]
    have hstage : countOcc x (endpointsOf (amziStageConns (n + 2)))
          + countOcc x ((amziPorts (n + 2)).map Prod.snd)
        = countOcc x ((amziPorts (n + 1)).map Prod.snd)
          + countOcc x (stageAllPorts (n + 2)) := by
      rw [amziStageConns, if_pos (by omega : 1 < n + 2),
        show n + 2 - 1 = n + 1 from rfl, stageAllPorts_eq]
      simp only [endpointsOf, amziPorts, List.map_cons, List.map_nil,
        List.flatten_cons, List.flatten_nil, List.cons_append,
        List.nil_append, List.append_nil]
      simp only [countOcc, List.countP_append, List.countP_cons,
        List.countP_nil]
      ring
    omega

theorem stageAllPorts_nodup (i : ℕ) : (stageAllPorts i).Nodup := by
  rw [stageAllPorts_eq]
  simp

theorem stageAllPorts_idx (i : ℕ) :
    ∀ x ∈ stageAllPorts i, x.1.2 = i := by
  intro x hx
  rw [stageAllPorts_eq] at hx
  fin_cases hx <;> rfl

theorem amziAllPorts_le (n : ℕ) : ∀ x ∈ amziAllPorts n, x.1.2 ≤ n := by
  induction n with
  | zero => simp [amziAllPorts]
  | succ n ih =>
    intro x hx
    rcases List.mem_append.mp hx with h | h
    · exact Nat.le_succ_of_le (ih x h)
    · exact Nat.le_of_eq (stageAllPorts_idx (n + 1) x h)

theorem amziAllPorts_nodup (n : ℕ) : (amziAllPorts n).Nodup := by
  induction n with
  | zero => simp [amziAllPorts]
  | succ n ih =>
    rw [show amziAllPorts (n + 1)
        = amziAllPorts n ++ stageAllPorts (n + 1) from rfl,
      List.nodup_append]
    refine ⟨ih, stageAllPorts_nodup _, ?_⟩
    intro x hx hx'
    have hle : x.1.2 ≤ n := amziAllPorts_le n x hx
    have hidx : x.1.2 = n + 1 := stageAllPorts_idx (n + 1) x hx'
    omega

/-- Claim C10: for every `n ≥ 1`, `cascaded_amzi_generator(n)` builds a
netlist with exactly `4n` instances (couplers exposing `in0,in1,out0,out1`
and waveguides exposing `in0,out0`), exactly `6n - 2` connection entries
and exactly `4` external ports, in which every exposed instance port is
referenced exactly once across connection endpoints and external-port
entries, and nothing else is referenced. -/
theorem C10_amzi_wellformed (n : ℕ) (hn : 1 ≤ n) :
    (amziInstances n).length = 4 * n ∧
    (amziConnections n).length = 6 * n - 2 ∧
    (amziPorts n).length = 4 ∧
    (∀ p : P4, p ∈ compPorts AComp.coupler) ∧
    (∀ p : P4, p ∈ compPorts AComp.waveguide ↔ (p = P4.in0 ∨ p = P4.out0)) ∧
    (∀ x ∈ amziAllPorts n, countOcc x (amziRefs n) = 1) ∧
    (∀ x : AName × P4, x ∉ amziAllPorts n → countOcc x (amziRefs n) = 0) := by
  obtain ⟨m, rfl⟩ : ∃ m, n = m + 1 := ⟨n - 1, by omega⟩
  refine ⟨amziInstances_length _, amziConnections_length _ hn, rfl,
    by decide, by decide, ?_, ?_⟩
  · intro x hx
    rw [amziRefs_count m x]
    exact countOcc_eq_one_of_mem (amziAllPorts_nodup _) hx
  · intro x hx
    rw [amziRefs_count m x]
    exact countOcc_eq_zero_of_not_mem hx

/-- Witness for C10 at `n = 2` (exercising the `i > 1` cross links). -/
theorem C10_amzi_wellformed_witness :
    (amziInstances 2).length = 4 * 2 ∧
    (amziConnections 2).length = 6 * 2 - 2 ∧
    (amziPorts 2).length = 4 ∧
    (∀ p : P4, p ∈ compPorts AComp.coupler) ∧
    (∀ p : P4, p ∈ compPorts AComp.waveguide ↔ (p = P4.in0 ∨ p = P4.out0)) ∧
    (∀ x ∈ amziAllPorts 2, countOcc x (amziRefs 2) = 1) ∧
    (∀ x : AName × P4, x ∉ amziAllPorts 2 → countOcc x (amziRefs 2) = 0) :=
  C10_amzi_wellformed 2 (by omega)

end Sax
